import Mathlib

/-!
Verification of the sparsity-pattern renderer `ShowPattern` from `helper.py`.

The source function extracts the COO triplets `(rows, cols, vals)` of a sparse
matrix, replaces every value by its absolute value, optionally binarizes values
strictly above `precision` to `1.0`, computes `minval = 0` and
`maxval = max(vals)`, builds a dense `(height, width)` array via
`scipy.sparse.csr_matrix` (which sums duplicate `(row, col)` entries and raises
on out-of-range indices), and displays it with
`figsize = (4, 4*width/width)`, `interpolation='none'`, `vmin=minval`,
`vmax=maxval`.

Values are modelled as rationals; Python's `max` built-in and `abs` are
embedded explicitly; runtime failures (empty `max`, inconsistent triplet
lengths, out-of-range indices) are modelled with `Except`.
-/

/-- The COO view of the input matrix `A`: the parallel triplet lists returned
by `A.COO()` together with the declared dimensions `A.height`, `A.width`. -/
structure COOMatrix where
  rows : List Nat
  cols : List Nat
  vals : List ℚ
  height : Nat
  width : Nat
  deriving DecidableEq, Repr

/-- Python's `abs` on a (rational-modelled) float. -/
def pyAbs (v : ℚ) : ℚ :=
  if v < 0 then -v else v

/-- Python's binary `max` step: keep the current best unless the new item is
strictly greater (this is how the `max` built-in folds over a list). -/
def pyMax (best item : ℚ) : ℚ :=
  if best < item then item else best

/-- Python's `max(list)`: `none` models the `ValueError` raised on an empty
list, otherwise fold `pyMax` from the first element. -/
def listMax : List ℚ → Option ℚ
  | [] => none
  | v :: vs => some (vs.foldl pyMax v)

/-- The loop body of `ShowPattern`: `vals_all[i] = abs(vals_all[i])`, then
`if binarize and vals_all[i] > precision: vals_all[i] = 1.0`. -/
def transformVal (precision : ℚ) (binarize : Bool) (v : ℚ) : ℚ :=
  let a := pyAbs v
  if binarize ∧ precision < a then 1 else a

/-- The value list after the mutation loop of `ShowPattern` has run. -/
def transformedVals (A : COOMatrix) (precision : ℚ) (binarize : Bool) : List ℚ :=
  A.vals.map (transformVal precision binarize)

/-- The transformed triplets `(row, col, transformed value)` handed to
`sp.csr_matrix((vals_all, (rows_all, cols_all)), ...)`. -/
def triplets (A : COOMatrix) (precision : ℚ) (binarize : Bool) :
    List (Nat × Nat × ℚ) :=
  A.rows.zip (A.cols.zip (transformedVals A precision binarize))

/-- One cell of the dense array `A_all.todense()`: scipy sums all stored
entries that fall on position `(i, j)`; a cell with no entry is `0`. -/
def denseEntry (ts : List (Nat × Nat × ℚ)) (i j : Nat) : ℚ :=
  ((ts.filter (fun t => t.1 == i && t.2.1 == j)).map (fun t => t.2.2)).sum

/-- The dense `(height, width)` array `A_all.todense()`. -/
def denseOf (ts : List (Nat × Nat × ℚ)) (h w : Nat) : List (List ℚ) :=
  (List.range h).map (fun i => (List.range w).map (fun j => denseEntry ts i j))

/-- Runtime failures `ShowPattern` can propagate: `max()` on an empty list,
and the `csr_matrix` constructor's errors for inconsistent triplet lengths or
indices outside the declared shape. -/
inductive RenderError where
  | emptyMax
  | lengthMismatch
  | outOfBounds
  deriving DecidableEq, Repr

/-- What a successful `ShowPattern` call hands to the plotting backend: the
dense array, the color-scale bounds, the figure size
`figsize=(4, 4*width/width)`, the `vmin`/`vmax` arguments of `imshow`, and
whether `interpolation='none'` was passed. -/
structure RenderResult where
  dense : List (List ℚ)
  minval : ℚ
  maxval : ℚ
  figW : ℚ
  figH : ℚ
  vmin : ℚ
  vmax : ℚ
  interpolationNone : Bool
  deriving DecidableEq, Repr

/-- `ShowPattern(A, precision, binarize)` from `helper.py`.  The mutation loop
is `transformedVals`; `max(vals_all)` runs first and raises on an empty list;
`csr_matrix` then validates triplet lengths and index bounds before the dense
array is built and displayed. -/
def ShowPattern (A : COOMatrix) (precision : ℚ) (binarize : Bool) :
    Except RenderError RenderResult :=
  let vals := transformedVals A precision binarize
  match listMax vals with
  | none => Except.error RenderError.emptyMax
  | some m =>
    if A.rows.length = A.cols.length ∧ A.cols.length = A.vals.length then
      if A.rows.all (fun r => decide (r < A.height)) ∧
          A.cols.all (fun c => decide (c < A.width)) then
        Except.ok
          { dense := denseOf (triplets A precision binarize) A.height A.width
            minval := 0
            maxval := m
            figW := 4
            figH := 4 * (A.width : ℚ) / (A.width : ℚ)
            vmin := 0
            vmax := m
            interpolationNone := true }
      else Except.error RenderError.outOfBounds
    else Except.error RenderError.lengthMismatch

/-- Optional lookup of cell `(i, j)` of a dense array given as rows of
columns. -/
def cell? (d : List (List ℚ)) (i j : Nat) : Option ℚ :=
  d[i]?.bind (fun row => row[j]?)

lemma pyAbs_eq_abs (v : ℚ) : pyAbs v = |v| := by
  rcases lt_or_le v 0 with h | h
  · simp [pyAbs, h, abs_of_neg h]
  · simp [pyAbs, not_lt.2 h, abs_of_nonneg h]

example : transformVal 1 true (-3) = 1 := by decide
example : transformVal 4 true 3 = 3 := by decide
example : transformVal 1 false (-3) = 3 := by decide
example : listMax [3, 7, 2] = some 7 := by decide

lemma le_pyMax_left (a b : ℚ) : a ≤ pyMax a b := by
  unfold pyMax
  split
  · exact le_of_lt (by assumption)
  · exact le_rfl

lemma le_pyMax_right (a b : ℚ) : b ≤ pyMax a b := by
  unfold pyMax
  split
  · exact le_rfl
  · exact le_of_not_lt (by assumption)

lemma pyMax_choice (a b : ℚ) : pyMax a b = a ∨ pyMax a b = b := by
  unfold pyMax
  split
  · exact Or.inr rfl
  · exact Or.inl rfl

lemma init_le_foldl_pyMax (vs : List ℚ) (a : ℚ) : a ≤ vs.foldl pyMax a := by
  induction vs generalizing a with
  | nil => simp
  | cons x xs ih => exact le_trans (le_pyMax_left a x) (ih (pyMax a x))

lemma mem_le_foldl_pyMax (vs : List ℚ) (a v : ℚ) (hv : v ∈ vs) :
    v ≤ vs.foldl pyMax a := by
  induction vs generalizing a with
  | nil => cases hv
  | cons x xs ih =>
    rcases List.mem_cons.1 hv with rfl | h
    · exact le_trans (le_pyMax_right a v) (init_le_foldl_pyMax xs (pyMax a v))
    · exact ih (pyMax a x) h

lemma foldl_pyMax_mem (vs : List ℚ) (a : ℚ) : vs.foldl pyMax a ∈ a :: vs := by
  induction vs generalizing a with
  | nil => simp
  | cons x xs ih =>
    rw [List.foldl_cons]
    rcases List.mem_cons.1 (ih (pyMax a x)) with he | h2
    · rw [he]
      rcases pyMax_choice a x with h3 | h3 <;> rw [h3] <;> simp
    · simp only [List.mem_cons]
      exact Or.inr (Or.inr h2)

lemma foldl_pyMax_const (l : List ℚ) (a : ℚ) (h : ∀ x ∈ l, x = a) :
    l.foldl pyMax a = a := by
  induction l with
  | nil => rfl
  | cons x xs ih =>
    have hx : x = a := h x (List.mem_cons_self x xs)
    rw [List.foldl_cons, hx, show pyMax a a = a from by simp [pyMax]]
    exact ih (fun y hy => h y (List.mem_cons_of_mem x hy))

lemma listMax_mem {l : List ℚ} {m : ℚ} (h : listMax l = some m) : m ∈ l := by
  cases l with
  | nil => simp [listMax] at h
  | cons x xs =>
    simp [listMax] at h
    subst h
    exact foldl_pyMax_mem xs x

lemma le_listMax {l : List ℚ} {m : ℚ} (h : listMax l = some m) :
    ∀ v ∈ l, v ≤ m := by
  cases l with
  | nil => simp [listMax] at h
  | cons x xs =>
    simp [listMax] at h
    subst h
    intro v hv
    rcases List.mem_cons.1 hv with rfl | hv2
    · exact init_le_foldl_pyMax xs v
    · exact mem_le_foldl_pyMax xs x v hv2

lemma listMax_isSome {l : List ℚ} (h : l ≠ []) : ∃ m, listMax l = some m := by
  cases l with
  | nil => exact absurd rfl h
  | cons v vs => exact ⟨vs.foldl pyMax v, rfl⟩

lemma cell?_denseOf (ts : List (Nat × Nat × ℚ)) (hh ww i j : Nat)
    (hi : i < hh) (hj : j < ww) :
    cell? (denseOf ts hh ww) i j = some (denseEntry ts i j) := by
  simp [cell?, denseOf, List.getElem?_map, List.getElem?_range, hi, hj]

lemma mem_triplets_proj {rows cols : List Nat} {tv : List ℚ} {t : Nat × Nat × ℚ}
    (ht : t ∈ rows.zip (cols.zip tv)) : (t.1, t.2.1) ∈ rows.zip cols := by
  induction rows generalizing cols tv with
  | nil => simp at ht
  | cons r rs ih =>
    cases cols with
    | nil => simp at ht
    | cons c cs =>
      cases tv with
      | nil => simp at ht
      | cons v vs =>
        rw [List.zip_cons_cons, List.zip_cons_cons] at ht
        rw [List.zip_cons_cons]
        rcases List.mem_cons.1 ht with rfl | hmem
        · exact List.mem_cons_self _ _
        · exact List.mem_cons_of_mem _ (ih hmem)

/-- Everything a successful `ShowPattern` call guarantees: `maxval` is the
Python `max` of the transformed values, the triplet lists have equal lengths,
all indices are within the declared shape, and each field of the result is
exactly what the source assembles. -/
lemma ShowPattern_ok {A : COOMatrix} {p : ℚ} {b : Bool} {res : RenderResult}
    (h : ShowPattern A p b = Except.ok res) :
    listMax (transformedVals A p b) = some res.maxval ∧
      (A.rows.length = A.cols.length ∧ A.cols.length = A.vals.length) ∧
      (∀ r ∈ A.rows, r < A.height) ∧ (∀ c ∈ A.cols, c < A.width) ∧
      res.dense = denseOf (triplets A p b) A.height A.width ∧
      res.minval = 0 ∧ res.figW = 4 ∧
      res.figH = 4 * (A.width : ℚ) / (A.width : ℚ) ∧
      res.vmin = 0 ∧ res.vmax = res.maxval ∧ res.interpolationNone = true := by
  simp only [ShowPattern] at h
  split at h
  · exact Except.noConfusion h
  · rename_i m hm
    split at h
    · rename_i hlen
      split at h
      · rename_i hbound
        injection h with h
        subst h
        refine ⟨hm, hlen, ?_, ?_, rfl, rfl, rfl, rfl, rfl, rfl, rfl⟩
        · intro r hr
          exact of_decide_eq_true (List.all_eq_true.1 hbound.1 r hr)
        · intro c hc
          exact of_decide_eq_true (List.all_eq_true.1 hbound.2 c hc)
      · exact Except.noConfusion h
    · exact Except.noConfusion h

/-- C1: for every stored entry, when `binarize` is true the rendered value is
`1.0` if `abs(value) > precision` (strict comparison), and otherwise it is
`abs(value)`; values at or below `precision` keep their absolute value and are
never floored to zero. -/
theorem c1_binarize_strict_threshold (A : COOMatrix) (precision : ℚ) (i : Nat) :
    (transformedVals A precision true)[i]? =
      (A.vals[i]?).map (fun v => if precision < |v| then 1 else |v|) := by
  simp only [transformedVals, List.getElem?_map]
  cases A.vals[i]? with
  | none => rfl
  | some v => simp [transformVal, pyAbs_eq_abs]

/-- C2: for every stored entry, when `binarize` is false the rendered
magnitude is the absolute value of the entry's original value, for every
`precision` setting. -/
theorem c2_no_binarize_abs (A : COOMatrix) (precision : ℚ) (i : Nat) :
    (transformedVals A precision false)[i]? =
      (A.vals[i]?).map (fun v => |v|) := by
  simp only [transformedVals, List.getElem?_map]
  cases A.vals[i]? with
  | none => rfl
  | some v => simp [transformVal, pyAbs_eq_abs]

/-- C6: a matrix with empty triplet lists makes the render call fail: the
`max` over the transformed values is undefined and propagates as a runtime
failure. -/
theorem c6_empty_matrix_fails (A : COOMatrix) (precision : ℚ) (binarize : Bool)
    (_hr : A.rows = []) (_hc : A.cols = []) (hv : A.vals = []) :
    ShowPattern A precision binarize = Except.error RenderError.emptyMax := by
  simp [ShowPattern, transformedVals, hv, listMax]

theorem c6_witness :
    ShowPattern (COOMatrix.mk [] [] [] 2 3) 1 false =
      Except.error RenderError.emptyMax :=
  c6_empty_matrix_fails (COOMatrix.mk [] [] [] 2 3) 1 false rfl rfl rfl

/-- C7: a stored entry whose row index reaches the declared height or whose
column index reaches the declared width makes the render call fail with the
out-of-bounds error of the dense-array construction; the entry is neither
clamped nor dropped. -/
theorem c7_out_of_bounds_fails (A : COOMatrix) (precision : ℚ) (binarize : Bool)
    (hlen : A.rows.length = A.cols.length ∧ A.cols.length = A.vals.length)
    (hne : A.vals ≠ [])
    (hoob : (∃ r ∈ A.rows, A.height ≤ r) ∨ ∃ c ∈ A.cols, A.width ≤ c) :
    ShowPattern A precision binarize = Except.error RenderError.outOfBounds := by
  have htv : transformedVals A precision binarize ≠ [] := by
    simp only [transformedVals, ne_eq, List.map_eq_nil_iff]
    exact hne
  obtain ⟨m, hm⟩ := listMax_isSome htv
  have hb : ¬(A.rows.all (fun r => decide (r < A.height)) = true ∧
      A.cols.all (fun c => decide (c < A.width)) = true) := by
    rintro ⟨h1, h2⟩
    rcases hoob with ⟨r, hr, hge⟩ | ⟨c, hc, hge⟩
    · exact absurd (of_decide_eq_true (List.all_eq_true.1 h1 r hr)) (not_lt.2 hge)
    · exact absurd (of_decide_eq_true (List.all_eq_true.1 h2 c hc)) (not_lt.2 hge)
  simp only [ShowPattern, hm]
  rw [if_pos hlen, if_neg hb]

theorem c7_witness :
    ShowPattern (COOMatrix.mk [5] [0] [2] 2 2) (-1) false =
      Except.error RenderError.outOfBounds :=
  c7_out_of_bounds_fails (COOMatrix.mk [5] [0] [2] 2 2) (-1) false
    ⟨rfl, rfl⟩ (by decide) (Or.inl ⟨5, by decide, by decide⟩)

/-- C10: when every stored value satisfies `abs(value) <= precision`,
rendering with `binarize=true` produces exactly the same outcome (same dense
array, same `maxval`) as rendering with `binarize=false`. -/
theorem c10_binarize_identity_below_threshold (A : COOMatrix) (precision : ℚ)
    (hall : ∀ v ∈ A.vals, |v| ≤ precision) :
    ShowPattern A precision true = ShowPattern A precision false := by
  have htv : transformedVals A precision true = transformedVals A precision false := by
    unfold transformedVals
    refine List.map_congr_left (fun v hv => ?_)
    have hnlt : ¬ precision < pyAbs v := by
      rw [pyAbs_eq_abs]
      exact not_lt.2 (hall v hv)
    simp [transformVal, hnlt]
  simp only [ShowPattern, triplets, htv]

theorem c10_witness :
    ShowPattern (COOMatrix.mk [0] [0] [2] 1 1) 3 true =
      ShowPattern (COOMatrix.mk [0] [0] [2] 1 1) 3 false :=
  c10_binarize_identity_below_threshold (COOMatrix.mk [0] [0] [2] 1 1) 3
    (by decide)

/-- C3: the dense array has shape exactly `(height, width)` as declared by the
matrix, regardless of which positions are populated, and every position with
no stored entry holds `0`. -/
theorem c3_dense_shape_and_zero_default (A : COOMatrix) (p : ℚ) (b : Bool)
    (res : RenderResult) (h : ShowPattern A p b = Except.ok res) :
    res.dense.length = A.height ∧
      (∀ row ∈ res.dense, row.length = A.width) ∧
      ∀ i j : Nat, i < A.height → j < A.width →
        (i, j) ∉ A.rows.zip A.cols → cell? res.dense i j = some 0 := by
  obtain ⟨-, -, -, -, hdense, -⟩ := ShowPattern_ok h
  refine ⟨?_, ?_, ?_⟩
  · rw [hdense]
    simp [denseOf]
  · intro row hrow
    rw [hdense] at hrow
    simp only [denseOf, List.mem_map] at hrow
    obtain ⟨i, -, rfl⟩ := hrow
    simp
  · intro i j hi hj hnot
    rw [hdense, cell?_denseOf _ _ _ _ _ hi hj]
    have hfil : (triplets A p b).filter (fun t => t.1 == i && t.2.1 == j) = [] := by
      rw [List.filter_eq_nil_iff]
      intro t ht hbt
      simp only [Bool.and_eq_true, beq_iff_eq] at hbt
      have hmem := mem_triplets_proj ht
      rw [hbt.1, hbt.2] at hmem
      exact hnot hmem
    simp [denseEntry, hfil]

def M3 : COOMatrix := COOMatrix.mk [0] [0] [2] 2 2

def R3 : RenderResult :=
  { dense := denseOf (triplets M3 1 false) 2 2
    minval := 0
    maxval := 2
    figW := 4
    figH := 4 * ((2 : Nat) : ℚ) / ((2 : Nat) : ℚ)
    vmin := 0
    vmax := 2
    interpolationNone := true }

theorem c3_witness :
    R3.dense.length = M3.height ∧
      (∀ row ∈ R3.dense, row.length = M3.width) ∧
      ∀ i j : Nat, i < M3.height → j < M3.width →
        (i, j) ∉ M3.rows.zip M3.cols → cell? R3.dense i j = some 0 :=
  c3_dense_shape_and_zero_default M3 1 false R3 rfl

/-- C4: for every rendered matrix the color-scale lower bound `minval` is `0`
and the upper bound `maxval` is the maximum of the transformed values over all
stored entries: it is attained by some transformed value and bounds them
all. -/
theorem c4_color_scale_bounds (A : COOMatrix) (p : ℚ) (b : Bool)
    (res : RenderResult) (h : ShowPattern A p b = Except.ok res) :
    res.minval = 0 ∧ res.maxval ∈ transformedVals A p b ∧
      ∀ v ∈ transformedVals A p b, v ≤ res.maxval := by
  obtain ⟨hm, -, -, -, -, hmin, -⟩ := ShowPattern_ok h
  exact ⟨hmin, listMax_mem hm, le_listMax hm⟩

def M4 : COOMatrix := COOMatrix.mk [0] [0] [5] 1 1

def R4 : RenderResult :=
  { dense := denseOf (triplets M4 1 false) 1 1
    minval := 0
    maxval := 5
    figW := 4
    figH := 4 * ((1 : Nat) : ℚ) / ((1 : Nat) : ℚ)
    vmin := 0
    vmax := 5
    interpolationNone := true }

theorem c4_witness :
    R4.minval = 0 ∧ R4.maxval ∈ transformedVals M4 1 false ∧
      ∀ v ∈ transformedVals M4 1 false, v ≤ R4.maxval :=
  c4_color_scale_bounds M4 1 false R4 rfl

/-- C5: the displayed image is a fixed-size square: since the figure height is
computed as `4*width/width`, both figure dimensions are `4` whatever the
matrix's true height, and the image is drawn with no interpolation between
cells over the color range from `minval` to `maxval`. -/
theorem c5_fixed_square_display (A : COOMatrix) (p : ℚ) (b : Bool)
    (res : RenderResult) (h : ShowPattern A p b = Except.ok res) :
    res.figW = 4 ∧ res.figH = 4 ∧ res.interpolationNone = true ∧
      res.vmin = res.minval ∧ res.vmax = res.maxval := by
  obtain ⟨hm, hlen, -, hcols, -, hmin, hfw, hfh, hvmin, hvmax, hinterp⟩ :=
    ShowPattern_ok h
  have hvne : A.vals ≠ [] := by
    intro hv
    rw [show transformedVals A p b = [] from by simp [transformedVals, hv]] at hm
    simp [listMax] at hm
  have hcne : A.cols ≠ [] := by
    intro hc
    apply hvne
    have hl := hlen.2
    rw [hc] at hl
    exact List.length_eq_zero.1 hl.symm
  obtain ⟨c, hcmem⟩ := List.exists_mem_of_ne_nil A.cols hcne
  have hw : 0 < A.width := Nat.lt_of_le_of_lt (Nat.zero_le c) (hcols c hcmem)
  have hwq : (A.width : ℚ) ≠ 0 := Nat.cast_ne_zero.2 (Nat.pos_iff_ne_zero.1 hw)
  refine ⟨hfw, ?_, hinterp, by rw [hvmin, hmin], by rw [hvmax]⟩
  rw [hfh, mul_div_assoc, div_self hwq, mul_one]

def M5 : COOMatrix := COOMatrix.mk [0] [0] [3] 5 2

def R5 : RenderResult :=
  { dense := denseOf (triplets M5 1 false) 5 2
    minval := 0
    maxval := 3
    figW := 4
    figH := 4 * ((2 : Nat) : ℚ) / ((2 : Nat) : ℚ)
    vmin := 0
    vmax := 3
    interpolationNone := true }

theorem c5_witness :
    R5.figW = 4 ∧ R5.figH = 4 ∧ R5.interpolationNone = true ∧
      R5.vmin = R5.minval ∧ R5.vmax = R5.maxval :=
  c5_fixed_square_display M5 1 false R5 rfl

/-- C8: multiple stored entries for one `(row, col)` pair are not
deduplicated: the dense cell at `(i, j)` is the sum of the transformed values
of all entries stored at that position, so it reflects every entry rather than
a single representative. -/
theorem c8_duplicate_entries_all_reflected (A : COOMatrix) (p : ℚ) (b : Bool)
    (res : RenderResult) (h : ShowPattern A p b = Except.ok res)
    (i j : Nat) (hi : i < A.height) (hj : j < A.width) :
    cell? res.dense i j =
      some ((((triplets A p b).filter (fun t => t.1 == i && t.2.1 == j)).map
        (fun t => t.2.2)).sum) := by
  obtain ⟨-, -, -, -, hdense, -⟩ := ShowPattern_ok h
  rw [hdense, cell?_denseOf _ _ _ _ _ hi hj]
  rfl

def M8 : COOMatrix := COOMatrix.mk [0, 0] [0, 0] [2, 3] 1 1

def R8 : RenderResult :=
  { dense := denseOf (triplets M8 (-1) false) 1 1
    minval := 0
    maxval := 3
    figW := 4
    figH := 4 * ((1 : Nat) : ℚ) / ((1 : Nat) : ℚ)
    vmin := 0
    vmax := 3
    interpolationNone := true }

theorem c8_witness :
    cell? R8.dense 0 0 =
      some ((((triplets M8 (-1) false).filter
        (fun t => t.1 == 0 && t.2.1 == 0)).map (fun t => t.2.2)).sum) :=
  c8_duplicate_entries_all_reflected M8 (-1) false R8 rfl 0 0
    (by decide) (by decide)

/-- C9: with the default `precision = -1` the threshold is never effective:
every transformed value is nonnegative and hence exceeds `-1`, so with
`binarize = true` every stored entry is rendered as `1.0`, and the `max` over
the transformed values of any non-empty matrix is `1.0`. -/
theorem c9_default_precision_all_ones (A : COOMatrix) (hne : A.vals ≠ []) :
    transformedVals A (-1) true = A.vals.map (fun _ => (1 : ℚ)) ∧
      listMax (transformedVals A (-1) true) = some 1 := by
  have hone : ∀ v : ℚ, transformVal (-1) true v = 1 := by
    intro v
    have h0 : (-1 : ℚ) < pyAbs v := by
      rw [pyAbs_eq_abs]
      exact lt_of_lt_of_le (by norm_num) (abs_nonneg v)
    simp [transformVal, h0]
  have hmap : transformedVals A (-1) true = A.vals.map (fun _ => (1 : ℚ)) := by
    unfold transformedVals
    exact List.map_congr_left (fun v _ => hone v)
  refine ⟨hmap, ?_⟩
  rw [hmap]
  cases hv : A.vals with
  | nil => exact absurd hv hne
  | cons x xs =>
    simp only [List.map_cons, listMax]
    congr 1
    apply foldl_pyMax_const
    intro y hy
    obtain ⟨z, -, rfl⟩ := List.mem_map.1 hy
    rfl

def M9 : COOMatrix := COOMatrix.mk [0] [0] [-3] 1 1

theorem c9_witness :
    transformedVals M9 (-1) true = M9.vals.map (fun _ => (1 : ℚ)) ∧
      listMax (transformedVals M9 (-1) true) = some 1 :=
  c9_default_precision_all_ones M9 (by decide)
